import Mathlib

/-!
Verification development for the intent merge engine of a network
configuration data server.  The Go sources are shallowly embedded:
pure functions become Lean functions, stateful code becomes explicit
state passing, machine integers become Int (no overflow is exercised
by the embedded code paths), fallible code returns Except or Option.

The embedding covers:
* the leaf variant set and its precedence rules
  (pkg/tree/yang-parser-adapter.go, second part: LeafVariants),
* the tree node and its operations
  (pkg/tree/entry.go: sharedEntryAttributes),
* the datastore intent transaction orchestration
  (pkg/datastore/intent_rpc_set_update.go and the datastore part of
  the unnamed sources: SetIntent, SetIntentUpdate, applyIntent,
  saveRawIntent, getRawIntent, rawIntentName).

External collaborators (cache store, schema service, southbound
driver, protobuf serialization) are specified only by interface in
the repository and are modelled as explicit parameters or oracle
records, as the specification prescribes.
-/

namespace DataServer

/-- Embedding of cache.Update: carries path, value bytes, priority,
owner and a timestamp.  Equality of updates ignores the timestamp.
The value bytes are modelled as a String. -/
structure CacheUpdate where
  path : List String
  value : String
  priority : Int
  owner : String
  ts : Int
deriving Repr, DecidableEq

/-- Modelled from the spec: the LeafEntry type (pkg/tree/leafentry.go is
not part of the provided sources; only its uses are).  A LeafEntry wraps
a cache.Update together with the three flags new, updated and delete. -/
structure LeafEntry where
  update : CacheUpdate
  isNew : Bool
  isUpdated : Bool
  delete : Bool
deriving Repr, DecidableEq

/-- Modelled from the spec: the reserved owner name denoting the running
configuration (the constant RunningIntentName is declared outside the
provided sources; the spec fixes the owner string to running). -/
def RunningIntentName : String := "running"

/-- Priority accessor chain LeafEntry.Priority -> Update.Priority. -/
def LeafEntry.priority (l : LeafEntry) : Int := l.update.priority

/-- Modelled from the spec: LeafEntry.EqualSkipPath compares a leaf
entry against a cache.Update ignoring the path; per the spec, update
equality also ignores the timestamp, so value, priority and owner are
compared. -/
def LeafEntry.EqualSkipPath (l : LeafEntry) (c : CacheUpdate) : Bool :=
  l.update.value == c.value && l.update.priority == c.priority && l.update.owner == c.owner

/-- Modelled from the spec: NewLeafEntry appends a fresh variant with
new set to the isNew argument and updated and delete cleared. -/
def NewLeafEntry (c : CacheUpdate) (isNew : Bool) : LeafEntry :=
  { update := c, isNew := isNew, isUpdated := false, delete := false }

/-- Modelled from the spec: LeafEntry.MarkUpdate sets the entry to the
new value and marks updated true and delete false. -/
def LeafEntry.MarkUpdate (l : LeafEntry) (c : CacheUpdate) : LeafEntry :=
  { l with update := c, isUpdated := true, delete := false }

/-- Embedding of LeafVariants.shouldDelete: false for an empty variant
set; false when the only variant is owned by running; otherwise true
iff every variant is deleted or owned by running. -/
def shouldDelete (lv : List LeafEntry) : Bool :=
  match lv with
  | [] => false
  | first :: rest =>
    if first.update.owner == RunningIntentName && rest.isEmpty then false
    else (first :: rest).all (fun l => l.delete || l.update.owner == RunningIntentName)

/-- Embedding of one iteration of the scan loop in
LeafVariants.GetHighestPrecedence: given the pair (highest, second) of
the entries seen so far, fold in the next entry e. -/
def pairInsert (hs : LeafEntry × Option LeafEntry) (e : LeafEntry) : LeafEntry × Option LeafEntry :=
  if hs.1.priority > e.priority then (e, some hs.1)
  else
    match hs.2 with
    | none => (hs.1, some e)
    | some sh => if sh.priority > e.priority then (hs.1, some e) else (hs.1, some sh)

/-- The scan loop of LeafVariants.GetHighestPrecedence, seeded with the
first variant as highest and no second. -/
def ghpLoop (hs : LeafEntry × Option LeafEntry) : List LeafEntry → LeafEntry × Option LeafEntry
  | [] => hs
  | e :: rest => ghpLoop (pairInsert hs e) rest

/-- Embedding of LeafVariants.GetHighestPrecedence: nil for an empty
set or when shouldDelete holds; otherwise scan for the two entries of
lowest priority value and dispatch on the onlyIfPrioChanged flag and
the delete, new and updated flags exactly as the source does. -/
def GetHighestPrecedence (onlyIfPrioChanged : Bool) (lv : List LeafEntry) : Option LeafEntry :=
  match lv with
  | [] => none
  | first :: rest =>
    if shouldDelete (first :: rest) then none
    else
      let hs := ghpLoop (first, none) rest
      let highest := hs.1
      let secondHighest := hs.2
      if !onlyIfPrioChanged then
        if !highest.delete then some highest else secondHighest
      else
        if !highest.delete then
          if highest.isNew || highest.isUpdated then some highest else none
        else
          match secondHighest with
          | some sh => if !sh.delete then some sh else none
          | none => none

/-- Embedding of LeafVariants.GetHighestPrecedenceValue: the minimum
priority over the non-deleted variants, MaxInt32 if none.  MaxInt32 is
kept as the literal bound used by the source. -/
def maxInt32 : Int := 2147483647

/-- Embedding of LeafVariants.GetHighestPrecedenceValue. -/
def GetHighestPrecedenceValue (lv : List LeafEntry) : Int :=
  lv.foldl (fun result e => if !e.delete && e.priority < result then e.priority else result) maxInt32

/-- Specification-side notion: insert an element e that occurs EARLIER
in the list than both members of the pair into a (lowest, second
lowest) pair; on priority ties the earlier element wins. -/
def consMerge (e : LeafEntry) (hs : LeafEntry × Option LeafEntry) : LeafEntry × Option LeafEntry :=
  match hs with
  | (h, none) => if e.priority ≤ h.priority then (e, some h) else (h, some e)
  | (h, some s) =>
    if e.priority ≤ h.priority then (e, some h)
    else if e.priority ≤ s.priority then (h, some e)
    else (h, some s)

/-- Specification-side notion of the claim: the variant with the lowest
priority value and the variant with the second lowest priority value of
a list, ties on priority resolved in favour of the earlier element. -/
def top2 : List LeafEntry → Option LeafEntry × Option LeafEntry
  | [] => (none, none)
  | e :: rest =>
    match top2 rest with
    | (none, _) => (some e, none)
    | (some h, s) =>
      let p := consMerge e (h, s)
      (some p.1, p.2)

/-- Specification-side reading of claim C1: the variant with the lowest
priority value among the non-deleted variants (ties in favour of the
earlier-inserted variant). -/
def lowestNonDeleted (lv : List LeafEntry) : Option LeafEntry :=
  (top2 (lv.filter (fun e => !e.delete))).1

/-- Invariant of the scan pair: when a second entry is tracked, its
priority value is at least that of the tracked highest entry. -/
def pairInv : LeafEntry × Option LeafEntry → Prop
  | (_, none) => True
  | (h, some s) => h.priority ≤ s.priority

/-- Helper for concrete test data: build a cache update. -/
def cuMk (p : List String) (v : String) (pr : Int) (ow : String) : CacheUpdate :=
  { path := p, value := v, priority := pr, owner := ow, ts := 0 }

/-- Concrete variant: owner A, priority 1, marked delete. -/
def leC1A : LeafEntry :=
  { update := cuMk ["interface", "eth0", "mtu"] "1500" 1 "A",
    isNew := false, isUpdated := false, delete := true }

/-- Concrete variant: owner B, priority 2, marked delete. -/
def leC1B : LeafEntry :=
  { update := cuMk ["interface", "eth0", "mtu"] "2000" 2 "B",
    isNew := false, isUpdated := false, delete := true }

/-- Concrete variant: owner C, priority 3, not deleted. -/
def leC1C : LeafEntry :=
  { update := cuMk ["interface", "eth0", "mtu"] "9000" 3 "C",
    isNew := true, isUpdated := false, delete := false }

/-- Concrete variant set with the two lowest-priority variants deleted. -/
def lvC1 : List LeafEntry := [leC1A, leC1B, leC1C]

/-- Concrete variant set whose shouldDelete is true. -/
def lvC1sd : List LeafEntry := [leC1A]

/-- Embedding of the schema element variants inspected by the embedded
tree code (sdcpb.SchemaElem): a container carries its key names and
the presence flag, the only schema attributes the embedded functions
read; fields and leaf-lists carry nothing the embedded functions
inspect. -/
inductive SchemaElem where
  | container (keys : List String) (isPresence : Bool)
  | field
  | leaflist
deriving Repr, DecidableEq

/-- Modelled from the spec: the choice case resolver state read by
GetDeletes (the resolver implementation file is not among the provided
sources); only the two case-name getters getOldBestCaseName and
getBestCaseName used by GetDeletes are represented. -/
structure ChoiceCasesResolver where
  oldBestCase : String
  bestCase : String
deriving Repr, DecidableEq

mutual
/-- Embedding of the tree Entry (sharedEntryAttributes): path element
name, optional schema, name-keyed children, leaf variants and choice
resolvers.  The Go children map is rendered as the name-keyed list
Childs; iteration order of the Go map is unspecified, the list fixes
one order. -/
inductive Entry where
  | mk (pathElemName : String) (schema : Option SchemaElem)
       (childs : Childs) (leafVariants : List LeafEntry)
       (choicesResolvers : List ChoiceCasesResolver)
deriving Repr, DecidableEq

/-- The name-keyed children collection of an Entry. -/
inductive Childs where
  | nil
  | cons (name : String) (e : Entry) (rest : Childs)
deriving Repr, DecidableEq
end

/-- Name of an entry (PathName). -/
def Entry.pathElemName : Entry → String
  | .mk n _ _ _ _ => n

/-- Schema of an entry (GetSchema). -/
def Entry.schema : Entry → Option SchemaElem
  | .mk _ s _ _ _ => s

/-- Children of an entry. -/
def Entry.childs : Entry → Childs
  | .mk _ _ c _ _ => c

/-- Leaf variants of an entry. -/
def Entry.leafVariants : Entry → List LeafEntry
  | .mk _ _ _ lv _ => lv

/-- Choice resolvers of an entry. -/
def Entry.choicesResolvers : Entry → List ChoiceCasesResolver
  | .mk _ _ _ _ ch => ch

/-- Lookup of a child by name in the children map. -/
def Childs.find? : Childs → String → Option Entry
  | .nil, _ => none
  | .cons nm e rest, seg => if nm == seg then some e else Childs.find? rest seg

/-- Go map assignment childs of name := entry: replace the entry at an
existing key, append a binding otherwise. -/
def Childs.insert : Childs → String → Entry → Childs
  | .nil, seg, c => .cons seg c .nil
  | .cons nm e rest, seg, c =>
    if nm == seg then .cons nm c rest else .cons nm e (Childs.insert rest seg c)

/-- Apply a function to the entry at the first occurrence of a key. -/
def Childs.modifyFirst : Childs → String → (Entry → Entry) → Childs
  | .nil, _, _ => .nil
  | .cons nm e rest, seg, f =>
    if nm == seg then .cons nm (f e) rest else .cons nm e (Childs.modifyFirst rest seg f)

/-- View of the children map as an association list, for statements. -/
def Childs.toList : Childs → List (String × Entry)
  | .nil => []
  | .cons nm e rest => (nm, e) :: Childs.toList rest

mutual
/-- Embedding of sharedEntryAttributes.ShouldDelete: when leaf variants
exist the call is delegated to the variant set; otherwise the entry
should be deleted iff every child should. -/
def Entry.ShouldDelete : Entry → Bool
  | .mk _ _ childs lv _ =>
    if 0 < lv.length then shouldDelete lv
    else Childs.allShouldDelete childs

/-- The loop over children in ShouldDelete: false as soon as one child
should not be deleted, true otherwise (true for no children). -/
def Childs.allShouldDelete : Childs → Bool
  | .nil => true
  | .cons _ e rest => Entry.ShouldDelete e && Childs.allShouldDelete rest
end

/-- Embedding of sharedEntryAttributes.IsDeleteKeyAttributesInLevelDown:
on the entry whose children hold the key attribute values, emit a
delete for the entry path when no named key child refuses deletion (a
missing key child does not refuse). -/
def IsDeleteKeyAttributesInLevelDown (childs : Childs) (path : List String)
    (keyAttributes : List String) (result : List (List String)) : List (List String) :=
  let doDelete := keyAttributes.all (fun n =>
    match childs.find? n with
    | some c => c.ShouldDelete
    | none => true)
  if doDelete then result ++ [path] else result

mutual
/-- Embedding of sharedEntryAttributes.GetDeletes.  The Go method reads
the node path and the nearest ancestor schema with its distance from
parent pointers; the embedding threads them as the arguments path, anc
and lvl (anc and lvl are the GetAncestorSchema result for this entry).
A child of this entry is visited with this entry schema and distance 1
when the schema is present, and with anc and lvl+1 otherwise. -/
def Entry.GetDeletes (e : Entry) (anc : Option SchemaElem) (lvl : Nat)
    (path : List String) (deletes : List (List String)) : List (List String) :=
  match e with
  | .mk _ schema childs lv choices =>
    let regular : List (List String) :=
      let childAnc : Option SchemaElem := match schema with | some s => some s | none => anc
      let childLvl : Nat := match schema with | some _ => 1 | none => lvl + 1
      let d2 : List (List String) :=
        match schema with
        | some (SchemaElem.container _ _) =>
          choices.foldl (fun acc v =>
            if v.oldBestCase ≠ "" ∧ v.bestCase ≠ "" ∧ v.oldBestCase ≠ v.bestCase
            then acc ++ [path ++ [v.oldBestCase]] else acc) deletes
        | _ => deletes
      if shouldDelete lv then
        d2 ++ (match lv with | x :: _ => [x.update.path] | [] => [])
      else Childs.getDeletes childs childAnc childLvl path d2
    match schema, anc with
    | none, some (SchemaElem.container keys _) =>
      if lvl = keys.length then
        let d1 := IsDeleteKeyAttributesInLevelDown childs path keys deletes
        if d1.length = deletes.length
        then Childs.getDeletes childs anc (lvl + 1) path deletes
        else d1
      else regular
    | _, _ => regular

/-- The recursion of GetDeletes over the children of an entry; anc and
lvl are the ancestor data of the children, path the parent path. -/
def Childs.getDeletes (cs : Childs) (anc : Option SchemaElem) (lvl : Nat)
    (path : List String) (deletes : List (List String)) : List (List String) :=
  match cs with
  | .nil => deletes
  | .cons nm e rest =>
    Childs.getDeletes rest anc lvl path (Entry.GetDeletes e anc lvl (path ++ [nm]) deletes)
end

/-- Outcome type distinguishing the three ways the embedded Go methods
can exit: a normal return value, a returned error, and a runtime panic
(nil dereference or slice bound violation). -/
inductive GoResult (α : Type) where
  | ok (val : α)
  | err (msg : String)
  | crash (msg : String)
deriving Repr, DecidableEq

/-- Embedding of sharedEntryAttributes.AddChild.  The source guard is
the expression not-is-container AND not-IsPresence: for a parent with
leaf variants whose schema is a container the first conjunct is false
and the guard short-circuits, so NO error is returned even when the
container is not a presence container; when the schema is not a
container the second conjunct dereferences a nil container pointer and
panics, and a nil schema makes the type assertion itself panic.  The
path guard compares the parent path with the child path shortened by
one element; an empty child path would make the Go slice expression
panic. -/
def Entry.AddChild (parent : Entry) (parentPath : List String)
    (child : Entry) (childPath : List String) : GoResult Entry :=
  match parent with
  | .mk nm schema childs lv choices =>
    let lvCheck : Option (GoResult Entry) :=
      if 0 < lv.length then
        match schema with
        | none => some (.crash "nil pointer dereference: schema is nil")
        | some (SchemaElem.container _ _) => none
        | some _ => some (.crash "nil pointer dereference: schema is not a container")
      else none
    match lvCheck with
    | some r => r
    | none =>
      match childPath with
      | [] => .crash "slice bounds out of range"
      | _ :: _ =>
        if parentPath = childPath.dropLast then
          .ok (.mk nm schema (childs.insert child.pathElemName child) lv choices)
        else .err "adding child with diverging path"

/-- Embedding of sharedEntryAttributes.Navigate.  The source initializes
the loop guard cont to false and then iterates while cont holds, so the
loop body (the cases for the dot segment, the dotdot segment and the
child lookup with lazy loading) is dead code: the method returns the
entry itself for an empty path and falls through to the error return
for every non-empty path. -/
def Entry.Navigate (e : Entry) (path : List String) : Except String Entry :=
  match path with
  | [] => .ok e
  | _ :: _ => .error "navigating tree, reached entry but child does not exist"

/-- Embedding of LeafVariants.GetByOwner via find?. -/
def lvGetByOwner (owner : String) (lv : List LeafEntry) : Option LeafEntry :=
  lv.find? (fun l => l.update.owner == owner)

/-- In-place mutation of the first variant of an owner, as performed by
the source through the pointer returned by GetByOwner. -/
def updateFirstByOwner (owner : String) (f : LeafEntry → LeafEntry) :
    List LeafEntry → List LeafEntry
  | [] => []
  | l :: rest =>
    if l.update.owner == owner then f l :: rest
    else l :: updateFirstByOwner owner f rest

/-- Embedding of newEntry and newSharedEntryAttributes for a child
created during AddCacheUpdateRecursive.  ancSchema and levelUp are the
GetAncestorSchema result of the new node; when that schema is a
container with at least levelUp keys the node is a key level and the
schema service is not queried (the schema stays nil); otherwise the
schema is fetched from the schema service oracle schemaOf at the child
path.  The created node has no children, no variants, and no choice
resolvers (the resolver state is populated from schema choice data
that the resolver model does not carry). -/
def newEntryModel (seg : String) (childPath : List String)
    (ancSchema : Option SchemaElem) (levelUp : Nat)
    (schemaOf : List String → Option SchemaElem) : Entry :=
  let getSchema : Bool :=
    match ancSchema with
    | some (SchemaElem.container keys _) => if levelUp ≤ keys.length then false else true
    | _ => true
  Entry.mk seg (if getSchema then schemaOf childPath else none) .nil [] []

/-- GetAncestorSchema step: the ancestor schema seen by a child of an
entry with the given schema whose own ancestor schema is anc. -/
def childAncOf (schema anc : Option SchemaElem) : Option SchemaElem :=
  match schema with | some s => some s | none => anc

/-- GetAncestorSchema step: the ancestor distance seen by a child of an
entry with the given schema whose own ancestor distance is ancLvl. -/
def childAncLvlOf (schema : Option SchemaElem) (ancLvl : Nat) : Nat :=
  match schema with | some _ => 1 | none => ancLvl + 1

/-- Embedding of sharedEntryAttributes.AddCacheUpdateRecursive.  The Go
method derives the index into the update path from the node depth; the
embedding carries the consumed prefix sofar and the remaining suffix
explicitly (sofar plus remaining is the update path, the Go index is
the length of sofar).  At the end of the path the variant of the same
owner is updated as the source does; otherwise the child for the next
segment is taken or created (schema fetch through schemaOf, AddChild
invariant checks of the parent, panics rendered as errors) and the
recursion continues.  anc and ancLvl are the GetAncestorSchema result
of this entry. -/
def Entry.addRec (e : Entry) (sofar remaining : List String) (c : CacheUpdate)
    (isNew : Bool) (anc : Option SchemaElem) (ancLvl : Nat)
    (schemaOf : List String → Option SchemaElem) : Except String Entry :=
  match e with
  | .mk nm schema childs lv choices =>
    match remaining with
    | [] =>
      match lvGetByOwner c.owner lv with
      | some leafVariant =>
        if leafVariant.EqualSkipPath c then
          .ok (.mk nm schema childs
            (updateFirstByOwner c.owner (fun l => { l with delete := false }) lv) choices)
        else
          .ok (.mk nm schema childs
            (updateFirstByOwner c.owner (fun l => LeafEntry.MarkUpdate l c) lv) choices)
      | none =>
        .ok (.mk nm schema childs (lv ++ [NewLeafEntry c isNew]) choices)
    | seg :: rest =>
      let childAnc : Option SchemaElem := childAncOf schema anc
      let childAncLvl : Nat := childAncLvlOf schema ancLvl
      match childs.find? seg with
      | some child =>
        match Entry.addRec child (sofar ++ [seg]) rest c isNew childAnc childAncLvl schemaOf with
        | .ok child2 => .ok (.mk nm schema (childs.insert seg child2) lv choices)
        | .error msg => .error msg
      | none =>
        let freshChild := newEntryModel seg (sofar ++ [seg]) childAnc childAncLvl schemaOf
        match Entry.AddChild (.mk nm schema childs lv choices) sofar freshChild (sofar ++ [seg]) with
        | .crash msg => .error msg
        | .err msg => .error msg
        | .ok _ =>
          match Entry.addRec freshChild (sofar ++ [seg]) rest c isNew childAnc childAncLvl schemaOf with
          | .ok child2 => .ok (.mk nm schema (childs.insert seg child2) lv choices)
          | .error msg => .error msg

/-- The root level call of AddCacheUpdateRecursive (index zero). -/
def Entry.AddCacheUpdateRecursive (e : Entry) (c : CacheUpdate) (isNew : Bool)
    (anc : Option SchemaElem) (ancLvl : Nat)
    (schemaOf : List String → Option SchemaElem) : Except String Entry :=
  Entry.addRec e [] c.path c isNew anc ancLvl schemaOf

/-- Surgical description of a second identical insertion: the tree with
only the delete flag of the given owner variant at the end of the
remaining path cleared and nothing else changed. -/
def Entry.clearDeleteAt (e : Entry) (remaining : List String) (owner : String) : Entry :=
  match e with
  | .mk nm schema childs lv choices =>
    match remaining with
    | [] =>
      .mk nm schema childs
        (updateFirstByOwner owner (fun l => { l with delete := false }) lv) choices
    | seg :: rest =>
      .mk nm schema (childs.modifyFirst seg (fun ce => Entry.clearDeleteAt ce rest owner))
        lv choices

/-- Concrete variant: owner B, priority 2, updated and not deleted. -/
def leC2B : LeafEntry :=
  { update := cuMk ["interface", "eth0", "mtu"] "2000" 2 "B",
    isNew := false, isUpdated := true, delete := false }

/-- Concrete variant set for the C2 witness: top is deleted, the second
lowest is live. -/
def lvC2w : List LeafEntry := [leC1C, leC1A, leC2B]

/-- The claim C5 right hand side exactly as stated: clause (i) asks only
that every non-running variant be deleted, with no exception for a
variant set consisting of the running variant alone. -/
def claimC5originalRhs (e : Entry) : Prop :=
  (e.leafVariants ≠ [] ∧
    ∀ v ∈ e.leafVariants, v.update.owner ≠ RunningIntentName → v.delete = true) ∨
  (e.leafVariants = [] ∧ ∀ p ∈ e.childs.toList, p.2.ShouldDelete = true)

/-- Concrete variant held by the running owner and not deleted. -/
def leRunC5 : LeafEntry :=
  { update := cuMk ["system", "hostname"] "h1" 10 "running",
    isNew := false, isUpdated := false, delete := false }

/-- Concrete leaf entry whose only variant belongs to running. -/
def ceC5 : Entry := Entry.mk "hostname" none .nil [leRunC5] []

/-- Concrete parent for C6: a NON presence container that already holds
a leaf variant. -/
def pC6 : Entry := Entry.mk "p" (some (SchemaElem.container ["name"] false)) .nil [leC1A] []

/-- Concrete parent for C6 with a non container schema and a variant. -/
def pC6bad : Entry := Entry.mk "p" (some SchemaElem.field) .nil [leC1A] []

/-- Concrete child for C6. -/
def cC6 : Entry := Entry.mk "c" none .nil [] []

/-- Expected result of adding cC6 under pC6. -/
def pC6ins : Entry :=
  Entry.mk "p" (some (SchemaElem.container ["name"] false)) (.cons "c" cC6 .nil) [leC1A] []

/-- Concrete child for C7. -/
def chC7 : Entry := Entry.mk "x" (some SchemaElem.field) .nil [leC2B] []

/-- Concrete node for C7 holding the child x. -/
def eC7 : Entry :=
  Entry.mk "root" (some (SchemaElem.container [] false)) (.cons "x" chC7 .nil) [] []

/-- Concrete deletable leaf for the C4 witness (one non running deleted
variant). -/
def leC4del : LeafEntry :=
  { update := cuMk ["interface", "eth1", "name"] "eth1" 10 "A",
    isNew := false, isUpdated := false, delete := true }

/-- Concrete live leaf for the C4 witness. -/
def leC4live : LeafEntry :=
  { update := cuMk ["interface", "eth1", "name"] "eth1" 10 "A",
    isNew := false, isUpdated := false, delete := false }

/-- Key child of the C4 witness nodes, deletable. -/
def cC4del : Entry := Entry.mk "name" none .nil [leC4del] []

/-- Key child of the C4 witness nodes, not deletable. -/
def cC4live : Entry := Entry.mk "name" none .nil [leC4live] []

/-- C4 witness node whose single key child is deletable. -/
def nC4del : Childs := .cons "name" cC4del .nil

/-- C4 witness node whose single key child refuses deletion. -/
def nC4live : Childs := .cons "name" cC4live .nil

/-- C8 witness root: an empty tree root with a container schema. -/
def eC8root : Entry := Entry.mk "" (some (SchemaElem.container [] false)) .nil [] []

/-- C8 witness update. -/
def uC8 : CacheUpdate := cuMk ["a", "b"] "v1" 5 "ownerA"

/-- C8 witness schema service oracle. -/
def schemaOfC8 : List String → Option SchemaElem := fun p =>
  if p = ["a"] then some (SchemaElem.container [] false) else some SchemaElem.field

/-- The tree produced by the first C8 insertion. -/
def tC8 : Entry :=
  match Entry.addRec eC8root [] uC8.path uC8 true none 0 schemaOfC8 with
  | .ok t => t
  | .error _ => eC8root

/-- Model of a single update inside a SetIntentRequest. -/
structure SIUpdate where
  path : List String
  value : String
deriving Repr, DecidableEq

/-- Model of sdcpb.SetIntentRequest: name of the datastore, intent
name (the owner), priority, the update list and the delete flag. -/
structure SetIntentRequest where
  name : String
  intent : String
  priority : Int
  update : List SIUpdate
  delete : Bool
deriving Repr, DecidableEq

/-- The literal raw intent key prefix of the source (Go rawIntentPrefix). -/
def rawIntentMarker : String := "__raw_intent__"

/-- The separator between intent name and priority in the raw key. -/
def intentRawNameSep : String := "_"

/-- Embedding of rawIntentName: sprintf of prefix, name, separator and
the decimal rendering of the int32 priority. -/
def rawIntentName (name : String) (pr : Int) : String :=
  rawIntentMarker ++ name ++ intentRawNameSep ++ toString pr

/-- Modelled from the spec: the intents partition of the cache store is
an external key-value store; a Modify call with one update writes the
value under the key, a Read of the key returns the stored value. -/
def storeInsert : List (String × List Nat) → String → List Nat → List (String × List Nat)
  | [], k, v => [(k, v)]
  | p :: rest, k, v => if p.1 == k then (p.1, v) :: rest else p :: storeInsert rest k v

/-- Read of a single key from the modelled key-value store. -/
def storeLookup : List (String × List Nat) → String → Option (List Nat)
  | [], _ => none
  | p :: rest, k => if p.1 == k then some p.2 else storeLookup rest k

/-- Removal of a key from the modelled key-value store. -/
def storeRemove : List (String × List Nat) → String → List (String × List Nat)
  | [], _ => []
  | p :: rest, k => if p.1 == k then rest else p :: storeRemove rest k

/-- Embedding of Datastore.saveRawIntent: serialize the request with
the protobuf serializer (an external function, passed as marshal),
and write the bytes into the intents store under rawIntentName. -/
def saveRawIntent (marshal : SetIntentRequest → List Nat)
    (st : List (String × List Nat)) (intentName : String) (req : SetIntentRequest) :
    List (String × List Nat) :=
  storeInsert st (rawIntentName intentName req.priority) (marshal req)

/-- Embedding of Datastore.getRawIntent: read the raw key from the
intents store (not found gives ErrIntentNotFound), then deserialize
with the external protobuf deserializer unmarshal. -/
def getRawIntent (unmarshal : List Nat → Option SetIntentRequest)
    (st : List (String × List Nat)) (intentName : String) (priority : Int) :
    Except String SetIntentRequest :=
  match storeLookup st (rawIntentName intentName priority) with
  | none => .error "intent not found"
  | some bs =>
    match unmarshal bs with
    | some req => .ok req
    | none => .error "unmarshal failed"

/-- The state of the external stores touched by the intent transaction:
the intended and running-config store partitions are kept as journals
of applied Modify calls (pairs of deletes and updates), the intents
partition as the key-value store of raw intent blobs, the candidate
writes as a counter and the existing candidates by name. -/
structure Stores where
  intended : List (List (List String) × List CacheUpdate)
  config : List (List (List String) × List CacheUpdate)
  intents : List (String × List Nat)
  candWrites : Nat
  candidates : List String
deriving Repr, DecidableEq

/-- Modelled from the spec: outcomes of the external calls made by
Datastore.applyIntent — the must-statement validation over the
updates, the leafref validation, and the southbound Set call. -/
structure ApplyEnv where
  mustRes : Except String Unit
  leafrefRes : Except String Unit
  sbiRes : Except String Unit
deriving Repr

/-- Embedding of Datastore.applyIntent: reject an empty candidate
name, validate must statements then leafrefs over the updates of the
request (first error returned), then send the set request to the
southbound interface only when there are updates or deletes. -/
def applyIntent (env : ApplyEnv) (candidateName : String)
    (numUpdates numDeletes : Nat) : Except String Unit :=
  if candidateName = "" then .error "missing candidate name"
  else
    match env.mustRes with
    | .error e => .error e
    | .ok _ =>
      match env.leafrefRes with
      | .error e => .error e
      | .ok _ =>
        if numUpdates + numDeletes > 0 then env.sbiRes
        else .ok ()

/-- Modelled from the spec: outcomes of the collaborator calls and the
tree-derived data consumed by Datastore.SetIntentUpdate.  populate is
the populateTree outcome (tree construction reads only); updates and
deletes are the southbound data computed by GetHighestPrecedence(true)
and GetDeletes; updatesOwner and deletesOwner the owner-scoped data for
the intended store; the two convert flags stand for the
cacheUpdateToUpdate path conversions; validationErrors for the errors
gathered from root.Validate; setCandidateRes for the setCandidate
cache write; applyEnv for applyIntent; the three modify results for
the cache Modify and raw-intent calls. -/
structure SetUpdateEnv where
  populate : Except String Unit
  updates : List CacheUpdate
  deletes : List (List String)
  updatesOwner : List CacheUpdate
  deletesOwner : List (List String)
  convertUpdatesOk : Bool
  validationErrors : List String
  convertDeletesOk : Bool
  setCandidateRes : Except String Unit
  applyEnv : ApplyEnv
  modifyIntendedRes : Except String Unit
  modifyConfigRes : Except String Unit
  modifyIntentsRes : Except String Unit
deriving Repr

/-- Embedding of Datastore.SetIntentUpdate, state passing over Stores.
The step order is that of the source: populate the tree, convert the
updates, gather the validation errors, convert the deletes, set the
candidate, apply the intent southbound, then and only then modify the
intended store, modify the running-config store, and save (or on a
delete request remove) the raw intent blob.  A failing Modify is
modelled as leaving the store unchanged. -/
def setIntentUpdate (env : SetUpdateEnv) (req : SetIntentRequest)
    (marshal : SetIntentRequest → List Nat) (candidateName : String) (st : Stores) :
    Except String Unit × Stores :=
  match env.populate with
  | .error e => (.error e, st)
  | .ok _ =>
    if env.convertUpdatesOk = false then (.error "convert update failed", st)
    else if env.validationErrors ≠ [] then (.error "cumulated validation errors", st)
    else if env.convertDeletesOk = false then (.error "convert delete failed", st)
    else
      match env.setCandidateRes with
      | .error e => (.error e, st)
      | .ok _ =>
        let st1 : Stores := { st with candWrites := st.candWrites + 1 }
        match applyIntent env.applyEnv candidateName env.updates.length env.deletes.length with
        | .error e => (.error e, st1)
        | .ok _ =>
          match env.modifyIntendedRes with
          | .error e => (.error ("failed updating the intended store: " ++ e), st1)
          | .ok _ =>
            let st2 : Stores :=
              { st1 with intended := st1.intended ++ [(env.deletesOwner, env.updatesOwner)] }
            match env.modifyConfigRes with
            | .error e => (.error ("failed updating the running config store: " ++ e), st2)
            | .ok _ =>
              let st3 : Stores :=
                { st2 with config := st2.config ++ [(env.deletes, env.updates)] }
              match env.modifyIntentsRes with
              | .error e => (.error e, st3)
              | .ok _ =>
                match req.delete with
                | true =>
                  let intents4 := storeRemove st3.intents (rawIntentName req.intent req.priority)
                  (.ok (), { st3 with intents := intents4 })
                | false =>
                  let intents4 := storeInsert st3.intents (rawIntentName req.intent req.priority)
                    (marshal req)
                  (.ok (), { st3 with intents := intents4 })

/-- Modelled from the spec: outcomes of the collaborator calls made by
Datastore.SetIntent — whether the per-datastore intent try-lock is
busy, the nanosecond timestamp used in the candidate name, and the
CreateCandidate outcome. -/
structure SetIntentEnv where
  lockBusy : Bool
  nowNanos : Int
  createCandidateRes : Except String Unit
deriving Repr

/-- Removal of the first occurrence of a name from a list. -/
def removeFirstStr : List String → String → List String
  | [], _ => []
  | x :: rest, nm => if x == nm then rest else x :: removeFirstStr rest nm

/-- Embedding of Datastore.SetIntent: fail fast when the try-lock is
busy; create the candidate named intent-timestamp; dispatch to the
update path when the request has updates, to the delete path when the
delete flag is set, and to neither otherwise; the deferred candidate
deletion runs on every exit path after candidate creation succeeded.
The two dispatch paths are passed as functions, exactly as the source
delegates to SetIntentUpdate and SetIntentDelete. -/
def setIntent (env : SetIntentEnv)
    (updatePath deletePath : Stores → Except String Unit × Stores)
    (req : SetIntentRequest) (st : Stores) : Except String Unit × Stores :=
  if env.lockBusy then (.error "datastore has an ongoing SetIntentRequest", st)
  else
    let candidateName := req.intent ++ "-" ++ toString env.nowNanos
    match env.createCandidateRes with
    | .error e => (.error e, st)
    | .ok _ =>
      let st1 : Stores := { st with candidates := st.candidates ++ [candidateName] }
      let step : Except String Unit × Stores :=
        if req.update.length > 0 then updatePath st1
        else if req.delete then deletePath st1
        else (.ok (), st1)
      (step.1, { step.2 with candidates := removeFirstStr step.2.candidates candidateName })

/-- Concrete C9 witness request. -/
def reqC9 : SetIntentRequest :=
  { name := "dev1", intent := "intentA", priority := 10,
    update := [{ path := ["interface"], value := "x" }], delete := false }

/-- Concrete serializer for the C9 witness. -/
def marshalC9 : SetIntentRequest → List Nat := fun r => if r = reqC9 then [0] else [1]

/-- Concrete deserializer for the C9 witness. -/
def unmarshalC9 : List Nat → Option SetIntentRequest := fun b =>
  if b = [0] then some reqC9 else none

/-- Concrete C3 witness environment: the southbound Set fails. -/
def envC3 : SetUpdateEnv :=
  { populate := .ok (), updates := [cuMk ["a"] "v" 5 "A"], deletes := [],
    updatesOwner := [cuMk ["a"] "v" 5 "A"], deletesOwner := [],
    convertUpdatesOk := true, validationErrors := [], convertDeletesOk := true,
    setCandidateRes := .ok (),
    applyEnv := { mustRes := .ok (), leafrefRes := .ok (), sbiRes := .error "unavailable" },
    modifyIntendedRes := .ok (), modifyConfigRes := .ok (), modifyIntentsRes := .ok () }

/-- Concrete store state for the C3 and C10 witnesses. -/
def stW : Stores :=
  { intended := [([], [])], config := [], intents := [("k", [7])],
    candWrites := 3, candidates := ["old"] }

/-- Concrete C10 witness environment. -/
def envC10 : SetIntentEnv :=
  { lockBusy := false, nowNanos := 171234, createCandidateRes := .ok () }

/-- Concrete C10 witness request: no updates, delete flag unset. -/
def reqC10 : SetIntentRequest :=
  { name := "dev1", intent := "intentB", priority := 7, update := [], delete := false }

theorem pairInsert_inv (hs : LeafEntry × Option LeafEntry) (x : LeafEntry)
    (hinv : pairInv hs) : pairInv (pairInsert hs x) := by
  obtain ⟨h, s⟩ := hs
  cases s with
  | none =>
    simp only [pairInsert]
    split_ifs <;> simp only [pairInv] <;> omega
  | some sh =>
    simp only [pairInv] at hinv
    simp only [pairInsert]
    split_ifs <;> simp only [pairInv] <;> omega

theorem pairInsert_consMerge_comm (e x : LeafEntry) (hs : LeafEntry × Option LeafEntry)
    (hinv : pairInv hs) :
    pairInsert (consMerge e hs) x = consMerge e (pairInsert hs x) := by
  obtain ⟨h, s⟩ := hs
  cases s with
  | none =>
    simp only [consMerge]
    split_ifs <;>
      · simp only [pairInsert]
        try dsimp only
        split_ifs <;>
          · try simp only [consMerge]
            try dsimp only
            try split_ifs
            all_goals first | rfl | omega
  | some sh =>
    simp only [pairInv] at hinv
    simp only [consMerge]
    split_ifs <;>
      · simp only [pairInsert]
        try dsimp only
        split_ifs <;>
          · try simp only [consMerge]
            try dsimp only
            try split_ifs
            all_goals first | rfl | omega

theorem ghpLoop_consMerge (e : LeafEntry) :
    ∀ (l : List LeafEntry) (hs : LeafEntry × Option LeafEntry), pairInv hs →
      ghpLoop (consMerge e hs) l = consMerge e (ghpLoop hs l) := by
  intro l
  induction l with
  | nil => intro hs _; rfl
  | cons x rest ih =>
    intro hs hinv
    show ghpLoop (pairInsert (consMerge e hs) x) rest
        = consMerge e (ghpLoop (pairInsert hs x) rest)
    rw [pairInsert_consMerge_comm e x hs hinv]
    exact ih (pairInsert hs x) (pairInsert_inv hs x hinv)

theorem consMerge_base (f x : LeafEntry) :
    consMerge f (x, none) = pairInsert (f, none) x := by
  simp only [consMerge, pairInsert]
  split_ifs <;> first | rfl | omega

/-- The scan loop of GetHighestPrecedence computes exactly the
specification-side pair of lowest and second lowest priority variants. -/
theorem top2_eq_ghpLoop : ∀ (r : List LeafEntry) (f : LeafEntry),
    top2 (f :: r) = (some (ghpLoop (f, none) r).1, (ghpLoop (f, none) r).2) := by
  intro r
  induction r with
  | nil => intro f; rfl
  | cons x rest ih =>
    intro f
    have hL : consMerge f (ghpLoop (x, none) rest) = ghpLoop (consMerge f (x, none)) rest :=
      (ghpLoop_consMerge f rest (x, none) trivial).symm
    calc top2 (f :: x :: rest)
        = (some (consMerge f (ghpLoop (x, none) rest)).1,
           (consMerge f (ghpLoop (x, none) rest)).2) := by
          rw [top2, ih x]
      _ = (some (ghpLoop (consMerge f (x, none)) rest).1,
           (ghpLoop (consMerge f (x, none)) rest).2) := by rw [hL]
      _ = (some (ghpLoop (f, none) (x :: rest)).1, (ghpLoop (f, none) (x :: rest)).2) := by
          rw [consMerge_base, ghpLoop]

theorem top2_cons (e : LeafEntry) (rest : List LeafEntry) :
    top2 (e :: rest) =
      match top2 rest with
      | (none, _) => (some e, none)
      | (some h, s) =>
        let p := consMerge e (h, s)
        (some p.1, p.2) := rfl

theorem top2_none : ∀ (lv : List LeafEntry) (s : Option LeafEntry),
    top2 lv = (none, s) → lv = [] := by
  intro lv s h
  cases lv with
  | nil => rfl
  | cons e rest =>
    rw [top2_cons] at h
    rcases hr : top2 rest with ⟨fst, snd⟩
    rw [hr] at h
    cases fst <;> simp at h

/-- The first component of top2 is the lowest priority element of the
list (earlier elements win ties) and the second component, when
present, has minimal priority among the remaining elements. -/
theorem top2_char : ∀ (lv : List LeafEntry) (t : LeafEntry) (s : Option LeafEntry),
    top2 lv = (some t, s) →
    ∃ l1 l2, lv = l1 ++ t :: l2 ∧
      (∀ x ∈ l1, t.priority < x.priority) ∧
      (∀ x ∈ l2, t.priority ≤ x.priority) ∧
      (s = none → l1 = [] ∧ l2 = []) ∧
      (∀ sh, s = some sh → sh ∈ l1 ++ l2 ∧ ∀ x ∈ l1 ++ l2, sh.priority ≤ x.priority) := by
  intro lv
  induction lv with
  | nil => intro t s h; simp [top2] at h
  | cons e rest ih =>
    intro t s h
    rw [top2_cons] at h
    rcases hr : top2 rest with ⟨fst, snd⟩
    rw [hr] at h
    cases fst with
    | none =>
      have hrest : rest = [] := top2_none rest snd hr
      subst hrest
      simp only [Prod.mk.injEq, Option.some.injEq] at h
      obtain ⟨ht, hs⟩ := h
      subst ht
      subst hs
      exact ⟨[], [], rfl, by simp, by simp, fun _ => ⟨rfl, rfl⟩, by simp⟩
    | some hh =>
      obtain ⟨l1, l2, hsplit, hl1, hl2, hnone, hsome⟩ := ih hh snd hr
      cases snd with
      | none =>
        obtain ⟨hl1e, hl2e⟩ := hnone rfl
        subst hl1e
        subst hl2e
        simp only [List.nil_append] at hsplit
        by_cases hc : e.priority ≤ hh.priority
        · simp only [consMerge, if_pos hc, Prod.mk.injEq, Option.some.injEq] at h
          obtain ⟨ht, hs⟩ := h
          subst ht
          subst hs
          refine ⟨[], [hh], by simp [hsplit], by simp, ?_, by simp, ?_⟩
          · intro x hx
            simp only [List.mem_singleton] at hx
            subst hx
            exact hc
          · intro sh hsh
            simp only [Option.some.injEq] at hsh
            subst hsh
            refine ⟨by simp, ?_⟩
            intro x hx
            simp only [List.nil_append, List.mem_singleton] at hx
            subst hx
            exact le_refl _
        · simp only [consMerge, if_neg hc, Prod.mk.injEq, Option.some.injEq] at h
          obtain ⟨ht, hs⟩ := h
          subst ht
          subst hs
          refine ⟨[e], [], by simp [hsplit], ?_, by simp, by simp, ?_⟩
          · intro x hx
            simp only [List.mem_singleton] at hx
            subst hx
            omega
          · intro sh hsh
            simp only [Option.some.injEq] at hsh
            subst hsh
            refine ⟨by simp, ?_⟩
            intro x hx
            simp only [List.append_nil, List.mem_singleton] at hx
            subst hx
            exact le_refl _
      | some sh0 =>
        obtain ⟨hsh0mem, hsh0min⟩ := hsome sh0 rfl
        by_cases hc1 : e.priority ≤ hh.priority
        · simp only [consMerge, if_pos hc1, Prod.mk.injEq, Option.some.injEq] at h
          obtain ⟨ht, hs⟩ := h
          subst ht
          subst hs
          refine ⟨[], rest, by simp, by simp, ?_, by simp, ?_⟩
          · intro x hx
            rw [hsplit] at hx
            rcases List.mem_append.mp hx with hx1 | hx2
            · exact le_of_lt (lt_of_le_of_lt hc1 (hl1 x hx1))
            · rcases List.mem_cons.mp hx2 with hxe | hxl2
              · subst hxe; exact hc1
              · exact le_trans hc1 (hl2 x hxl2)
          · intro sh hsh
            simp only [Option.some.injEq] at hsh
            subst hsh
            refine ⟨?_, ?_⟩
            · rw [hsplit, List.nil_append]
              exact List.mem_append.mpr (Or.inr (List.mem_cons_self _ _))
            · intro x hx
              rw [List.nil_append, hsplit] at hx
              rcases List.mem_append.mp hx with hx1 | hx2
              · exact le_of_lt (hl1 x hx1)
              · rcases List.mem_cons.mp hx2 with hxe | hxl2
                · subst hxe; exact le_refl _
                · exact hl2 x hxl2
        · by_cases hc2 : e.priority ≤ sh0.priority
          · simp only [consMerge, if_neg hc1, if_pos hc2, Prod.mk.injEq, Option.some.injEq] at h
            obtain ⟨ht, hs⟩ := h
            subst ht
            subst hs
            refine ⟨e :: l1, l2, by simp [hsplit], ?_, hl2, by simp, ?_⟩
            · intro x hx
              rcases List.mem_cons.mp hx with hxe | hxl1
              · subst hxe; omega
              · exact hl1 x hxl1
            · intro sh hsh
              simp only [Option.some.injEq] at hsh
              subst hsh
              refine ⟨List.mem_cons_self _ _, ?_⟩
              intro x hx
              rcases List.mem_cons.mp hx with hxe | hxrest
              · subst hxe; exact le_refl _
              · exact le_trans hc2 (hsh0min x hxrest)
          · simp only [consMerge, if_neg hc1, if_neg hc2, Prod.mk.injEq, Option.some.injEq] at h
            obtain ⟨ht, hs⟩ := h
            subst ht
            subst hs
            refine ⟨e :: l1, l2, by simp [hsplit], ?_, hl2, by simp, ?_⟩
            · intro x hx
              rcases List.mem_cons.mp hx with hxe | hxl1
              · subst hxe; omega
              · exact hl1 x hxl1
            · intro sh hsh
              simp only [Option.some.injEq] at hsh
              subst hsh
              refine ⟨List.mem_cons.mpr (Or.inr hsh0mem), ?_⟩
              intro x hx
              rcases List.mem_cons.mp hx with hxe | hxrest
              · subst hxe; omega
              · exact hsh0min x hxrest

theorem GetHighestPrecedence_false_eq (first : LeafEntry) (rest : List LeafEntry)
    (hsd : shouldDelete (first :: rest) = false) :
    GetHighestPrecedence false (first :: rest) =
      (if (ghpLoop (first, none) rest).1.delete then (ghpLoop (first, none) rest).2
       else some (ghpLoop (first, none) rest).1) := by
  simp only [GetHighestPrecedence, hsd]
  cases hdel : (ghpLoop (first, none) rest).1.delete <;> simp [hdel]

theorem GetHighestPrecedence_true_eq (first : LeafEntry) (rest : List LeafEntry)
    (hsd : shouldDelete (first :: rest) = false) :
    GetHighestPrecedence true (first :: rest) =
      (if (ghpLoop (first, none) rest).1.delete = false then
         (if (ghpLoop (first, none) rest).1.isNew || (ghpLoop (first, none) rest).1.isUpdated
          then some (ghpLoop (first, none) rest).1 else none)
       else
         match (ghpLoop (first, none) rest).2 with
         | some sh => if sh.delete = false then some sh else none
         | none => none) := by
  simp only [GetHighestPrecedence, hsd]
  cases hdel : (ghpLoop (first, none) rest).1.delete <;>
    cases hs2 : (ghpLoop (first, none) rest).2 <;>
      simp [hdel, hs2]

/-- C1 (corrected): for a leaf node, GetHighestPrecedence with
onlyChanged false returns none when shouldDelete holds; otherwise it
returns the variant with the lowest priority value among ALL variants
(ties resolved in favour of the earlier-inserted variant) when that
variant is not marked delete, and otherwise the variant with the
second lowest priority value (which may itself be marked delete), or
none when no second variant exists.  The original claim, which said
the result is the lowest-priority NON-DELETED variant, is refuted by
claim_C1_counterexample. -/
theorem claim_C1_amended_theorem (lv : List LeafEntry) :
    (shouldDelete lv = true → GetHighestPrecedence false lv = none) ∧
    (lv ≠ [] → shouldDelete lv = false →
      ∃ top sec l1 l2,
        top2 lv = (some top, sec) ∧
        lv = l1 ++ top :: l2 ∧
        (∀ x ∈ l1, top.priority < x.priority) ∧
        (∀ x ∈ l2, top.priority ≤ x.priority) ∧
        (∀ sh, sec = some sh →
          sh ∈ l1 ++ l2 ∧ ∀ x ∈ l1 ++ l2, sh.priority ≤ x.priority) ∧
        GetHighestPrecedence false lv = (if top.delete then sec else some top)) := by
  constructor
  · intro hsd
    cases lv with
    | nil => rfl
    | cons f r => simp [GetHighestPrecedence, hsd]
  · intro hne hsd
    cases lv with
    | nil => exact absurd rfl hne
    | cons f r =>
      have htop := top2_eq_ghpLoop r f
      obtain ⟨l1, l2, hsplit, hl1, hl2, _, hsome⟩ :=
        top2_char (f :: r) (ghpLoop (f, none) r).1 (ghpLoop (f, none) r).2 htop
      exact ⟨(ghpLoop (f, none) r).1, (ghpLoop (f, none) r).2, l1, l2, htop, hsplit,
        hl1, hl2, hsome, GetHighestPrecedence_false_eq f r hsd⟩

/-- C1 counterexample: in the set lvC1 the two variants of lowest
priority value are both marked delete and the third is live; the claim
as stated demands the lowest-priority non-deleted variant (owner C),
but the source returns the second-lowest variant (owner B) even though
it is marked delete. -/
theorem claim_C1_counterexample :
    lvC1 ≠ [] ∧ shouldDelete lvC1 = false ∧
    lowestNonDeleted lvC1 = some leC1C ∧
    GetHighestPrecedence false lvC1 = some leC1B ∧
    leC1B.delete = true ∧ some leC1B ≠ some leC1C := by decide

/-- Witness for claim_C1_amended_theorem at concrete inputs. -/
theorem claim_C1_witness :
    (GetHighestPrecedence false lvC1sd = none) ∧
    (∃ top sec l1 l2,
        top2 lvC1 = (some top, sec) ∧
        lvC1 = l1 ++ top :: l2 ∧
        (∀ x ∈ l1, top.priority < x.priority) ∧
        (∀ x ∈ l2, top.priority ≤ x.priority) ∧
        (∀ sh, sec = some sh →
          sh ∈ l1 ++ l2 ∧ ∀ x ∈ l1 ++ l2, sh.priority ≤ x.priority) ∧
        GetHighestPrecedence false lvC1 = (if top.delete then sec else some top)) :=
  ⟨(claim_C1_amended_theorem lvC1sd).1 (by decide),
   (claim_C1_amended_theorem lvC1).2 (by decide) (by decide)⟩

/-- C2 (confirmed): for a non-empty variant set with shouldDelete
false, GetHighestPrecedence with onlyChanged true returns the top
(lowest-priority) variant iff it is not marked delete and is flagged
new or updated; if the top variant is marked delete and a second
lowest priority variant exists that is not marked delete, it returns
that second variant; otherwise it returns none. -/
theorem claim_C2_theorem (lv : List LeafEntry) (hne : lv ≠ [])
    (hsd : shouldDelete lv = false) :
    ∃ top sec l1 l2,
      top2 lv = (some top, sec) ∧
      lv = l1 ++ top :: l2 ∧
      (∀ x ∈ l1, top.priority < x.priority) ∧
      (∀ x ∈ l2, top.priority ≤ x.priority) ∧
      (∀ sh, sec = some sh →
        sh ∈ l1 ++ l2 ∧ ∀ x ∈ l1 ++ l2, sh.priority ≤ x.priority) ∧
      GetHighestPrecedence true lv =
        (if top.delete = false then
           (if top.isNew || top.isUpdated then some top else none)
         else
           match sec with
           | some sh => if sh.delete = false then some sh else none
           | none => none) := by
  cases lv with
  | nil => exact absurd rfl hne
  | cons f r =>
    have htop := top2_eq_ghpLoop r f
    obtain ⟨l1, l2, hsplit, hl1, hl2, _, hsome⟩ :=
      top2_char (f :: r) (ghpLoop (f, none) r).1 (ghpLoop (f, none) r).2 htop
    exact ⟨(ghpLoop (f, none) r).1, (ghpLoop (f, none) r).2, l1, l2, htop, hsplit,
      hl1, hl2, hsome, GetHighestPrecedence_true_eq f r hsd⟩

/-- Witness for claim_C2_theorem at a concrete input whose top variant
is deleted and whose second variant is live and updated. -/
theorem claim_C2_witness :
    ∃ top sec l1 l2,
      top2 lvC2w = (some top, sec) ∧
      lvC2w = l1 ++ top :: l2 ∧
      (∀ x ∈ l1, top.priority < x.priority) ∧
      (∀ x ∈ l2, top.priority ≤ x.priority) ∧
      (∀ sh, sec = some sh →
        sh ∈ l1 ++ l2 ∧ ∀ x ∈ l1 ++ l2, sh.priority ≤ x.priority) ∧
      GetHighestPrecedence true lvC2w =
        (if top.delete = false then
           (if top.isNew || top.isUpdated then some top else none)
         else
           match sec with
           | some sh => if sh.delete = false then some sh else none
           | none => none) :=
  claim_C2_theorem lvC2w (by decide) (by decide)

theorem allShouldDelete_iff : ∀ cs : Childs,
    Childs.allShouldDelete cs = true ↔ ∀ p ∈ cs.toList, p.2.ShouldDelete = true
  | .nil => by simp [Childs.allShouldDelete, Childs.toList]
  | .cons nm e rest => by
    rw [Childs.allShouldDelete, Bool.and_eq_true, allShouldDelete_iff rest]
    simp [Childs.toList]

theorem shouldDelete_iff (lv : List LeafEntry) :
    shouldDelete lv = true ↔
      (lv ≠ [] ∧
        ¬(∃ v, lv = [v] ∧ v.update.owner = RunningIntentName) ∧
        ∀ v ∈ lv, v.update.owner ≠ RunningIntentName → v.delete = true) := by
  cases lv with
  | nil => simp [shouldDelete]
  | cons first rest =>
    rw [shouldDelete]
    by_cases hrun : first.update.owner = RunningIntentName ∧ rest = []
    · obtain ⟨hro, hre⟩ := hrun
      subst hre
      simp [hro]
    · have hcond : (first.update.owner == RunningIntentName && rest.isEmpty) = false := by
        rcases Decidable.em (first.update.owner = RunningIntentName) with ho | ho
        · have hre : rest ≠ [] := fun hr => hrun ⟨ho, hr⟩
          cases rest with
          | nil => exact absurd rfl hre
          | cons a b => simp
        · simp [ho]
      rw [hcond]
      simp only [Bool.false_eq_true, if_false, List.all_eq_true, Bool.or_eq_true, beq_iff_eq]
      constructor
      · intro hall
        refine ⟨by simp, ?_, ?_⟩
        · rintro ⟨v, hv, hvo⟩
          have : first = v ∧ rest = [] := by
            cases hv
            exact ⟨rfl, rfl⟩
          exact hrun ⟨this.1 ▸ hvo, this.2⟩
        · intro v hv hvo
          rcases hall v hv with hd | ho2
          · exact hd
          · exact absurd ho2 hvo
      · rintro ⟨-, -, hall⟩
        intro v hv
        rcases Decidable.em (v.update.owner = RunningIntentName) with ho2 | ho2
        · exact Or.inr ho2
        · exact Or.inl (hall v hv ho2)

/-- C5 (corrected): a node should be deleted iff either (i) it has leaf
variants, the variant set does not consist of exactly one variant owned
by the reserved owner running, and every variant whose owner is not
running has its delete flag set, or (ii) it has no leaf variants and
every child should be deleted.  The claim as stated, without the
single-running-variant exception, is refuted by
claim_C5_counterexample. -/
theorem claim_C5_amended_theorem (e : Entry) :
    e.ShouldDelete = true ↔
      ((e.leafVariants ≠ [] ∧
        ¬(∃ v, e.leafVariants = [v] ∧ v.update.owner = RunningIntentName) ∧
        ∀ v ∈ e.leafVariants, v.update.owner ≠ RunningIntentName → v.delete = true) ∨
       (e.leafVariants = [] ∧ ∀ p ∈ e.childs.toList, p.2.ShouldDelete = true)) := by
  obtain ⟨nm, sch, childs, lv, ch⟩ := e
  rw [Entry.ShouldDelete]
  simp only [Entry.leafVariants, Entry.childs]
  cases lv with
  | nil =>
    simp only [List.length_nil, lt_irrefl, if_false]
    rw [allShouldDelete_iff]
    simp
  | cons first rest =>
    simp only [List.length_cons, Nat.zero_lt_succ, if_true]
    rw [shouldDelete_iff]
    simp

/-- C5 counterexample: a leaf node whose only variant is owned by
running (and not even deleted) satisfies clause (i) of the claim as
stated vacuously, yet ShouldDelete returns false. -/
theorem claim_C5_counterexample :
    claimC5originalRhs ceC5 ∧ ceC5.ShouldDelete = false := by
  constructor
  · left
    refine ⟨by decide, ?_⟩
    decide
  · decide

/-- C6: the code does not return an error when the parent carries leaf
variants and its schema is a container that is NOT a presence
container: the guard not-is-container AND not-IsPresence
short-circuits on its first conjunct, so the child is added and nil is
returned, against the claim and against the source comment that only
presence containers are excepted.  For a non container schema the
second conjunct dereferences a nil pointer instead of returning the
error.  The last conjunct shows the diverging-path error case. -/
theorem claim_C6_code_eval :
    pC6.leafVariants ≠ [] ∧
    pC6.schema = some (SchemaElem.container ["name"] false) ∧
    Entry.AddChild pC6 ["p"] cC6 ["p", "c"] = .ok pC6ins ∧
    Entry.AddChild pC6bad ["p"] cC6 ["p", "c"] =
      .crash "nil pointer dereference: schema is not a container" ∧
    Entry.AddChild pC6 ["p"] cC6 ["q", "c"] = .err "adding child with diverging path" := by
  refine ⟨by decide, rfl, rfl, rfl, by decide⟩

/-- C7: Navigate returns the entry itself on the empty path, but
returns the does-not-exist error for EVERY non-empty path — even a
plain child lookup for an existing child, and even the dot segment —
because the resolution loop guard cont is initialized to false and the
loop body never runs. -/
theorem claim_C7_code_eval :
    eC7.childs.find? "x" = some chC7 ∧
    Entry.Navigate eC7 ["x"] =
      .error "navigating tree, reached entry but child does not exist" ∧
    Entry.Navigate eC7 ["."] =
      .error "navigating tree, reached entry but child does not exist" ∧
    Entry.Navigate eC7 [] = .ok eC7 := by
  exact ⟨rfl, rfl, rfl, rfl⟩

theorem isDeleteKey_all_iff (childs : Childs) (keys : List String) :
    (keys.all fun n =>
      match childs.find? n with
      | some c => c.ShouldDelete
      | none => true) = true ↔
    (∀ k ∈ keys, ∀ c, childs.find? k = some c → c.ShouldDelete = true) := by
  rw [List.all_eq_true]
  constructor
  · intro h k hk c hc
    have := h k hk
    rw [hc] at this
    exact this
  · intro h k hk
    cases hc : childs.find? k with
    | none => rfl
    | some c => exact h k hk c hc

theorem GetDeletes_keyLevel (nm : String) (childs : Childs) (lv : List LeafEntry)
    (choices : List ChoiceCasesResolver) (keys : List String) (pres : Bool)
    (path : List String) (deletes : List (List String)) :
    Entry.GetDeletes (Entry.mk nm none childs lv choices)
        (some (SchemaElem.container keys pres)) keys.length path deletes
      = (if (IsDeleteKeyAttributesInLevelDown childs path keys deletes).length = deletes.length
         then Childs.getDeletes childs (some (SchemaElem.container keys pres))
                (keys.length + 1) path deletes
         else IsDeleteKeyAttributesInLevelDown childs path keys deletes) := by
  have h : Entry.GetDeletes (Entry.mk nm none childs lv choices)
      (some (SchemaElem.container keys pres)) keys.length path deletes
    = (if keys.length = keys.length then
        (if (IsDeleteKeyAttributesInLevelDown childs path keys deletes).length = deletes.length
         then Childs.getDeletes childs (some (SchemaElem.container keys pres))
                (keys.length + 1) path deletes
         else IsDeleteKeyAttributesInLevelDown childs path keys deletes)
      else
        (if shouldDelete lv then
           deletes ++ (match lv with | x :: _ => [x.update.path] | [] => [])
         else Childs.getDeletes childs (some (SchemaElem.container keys pres))
                (keys.length + 1) path deletes)) := rfl
  rw [h, if_pos rfl]

/-- C4 (confirmed): at a schema-less node whose nearest ancestor schema
is a keyed container and whose depth below that ancestor equals the
number of keys, GetDeletes emits exactly one delete for the node path
and does not recurse into the subtree when every named key attribute
child present reports ShouldDelete; otherwise no aggregate delete is
emitted and the children are recursed instead. -/
theorem claim_C4_theorem (nm : String) (childs : Childs) (lv : List LeafEntry)
    (choices : List ChoiceCasesResolver) (keys : List String) (pres : Bool)
    (path : List String) (deletes : List (List String)) :
    ((∀ k ∈ keys, ∀ c, childs.find? k = some c → c.ShouldDelete = true) →
      Entry.GetDeletes (Entry.mk nm none childs lv choices)
          (some (SchemaElem.container keys pres)) keys.length path deletes
        = deletes ++ [path]) ∧
    ((¬ ∀ k ∈ keys, ∀ c, childs.find? k = some c → c.ShouldDelete = true) →
      Entry.GetDeletes (Entry.mk nm none childs lv choices)
          (some (SchemaElem.container keys pres)) keys.length path deletes
        = Childs.getDeletes childs (some (SchemaElem.container keys pres))
            (keys.length + 1) path deletes) := by
  constructor
  · intro hall
    rw [GetDeletes_keyLevel]
    have hd : IsDeleteKeyAttributesInLevelDown childs path keys deletes = deletes ++ [path] := by
      rw [IsDeleteKeyAttributesInLevelDown]
      rw [if_pos ((isDeleteKey_all_iff childs keys).mpr hall)]
    rw [hd]
    have hlen : ¬((deletes ++ [path]).length = deletes.length) := by simp
    rw [if_neg hlen]
  · intro hnall
    rw [GetDeletes_keyLevel]
    have hb : ¬((keys.all fun n =>
        match childs.find? n with
        | some c => c.ShouldDelete
        | none => true) = true) := fun hb => hnall ((isDeleteKey_all_iff childs keys).mp hb)
    have hd : IsDeleteKeyAttributesInLevelDown childs path keys deletes = deletes := by
      rw [IsDeleteKeyAttributesInLevelDown]
      rw [if_neg hb]
    rw [hd, if_pos rfl]

/-- Witness for claim_C4_theorem: a keyed list instance with a single
key child, once deletable (one aggregate delete, no recursion) and
once live (no aggregate delete, children recursed). -/
theorem claim_C4_witness :
    ((∀ k ∈ ["name"], ∀ c, Childs.find? nC4del k = some c → c.ShouldDelete = true) ∧
      Entry.GetDeletes (Entry.mk "eth1" none nC4del [] [])
          (some (SchemaElem.container ["name"] false)) 1 ["interface", "eth1"] []
        = [["interface", "eth1"]]) ∧
    ((¬ ∀ k ∈ ["name"], ∀ c, Childs.find? nC4live k = some c → c.ShouldDelete = true) ∧
      Entry.GetDeletes (Entry.mk "eth1" none nC4live [] [])
          (some (SchemaElem.container ["name"] false)) 1 ["interface", "eth1"] []
        = Childs.getDeletes nC4live (some (SchemaElem.container ["name"] false)) 2
            ["interface", "eth1"] []) :=
  ⟨⟨by decide,
    ( claim_C4_theorem "eth1" nC4del [] [] ["name"] false ["interface", "eth1"] []).1 (by decide)⟩,
   ⟨by decide,
    ( claim_C4_theorem "eth1" nC4live [] [] ["name"] false ["interface", "eth1"] []).2 (by decide)⟩⟩

theorem addRec_nil {nm : String} {schema : Option SchemaElem} {childs : Childs}
    {lv : List LeafEntry} {choices : List ChoiceCasesResolver} {sofar : List String}
    {c : CacheUpdate} {isNew : Bool} {anc : Option SchemaElem} {ancLvl : Nat}
    {schemaOf : List String → Option SchemaElem} :
    Entry.addRec (.mk nm schema childs lv choices) sofar [] c isNew anc ancLvl schemaOf
      = (match lvGetByOwner c.owner lv with
         | some leafVariant =>
           if leafVariant.EqualSkipPath c then
             .ok (.mk nm schema childs
               (updateFirstByOwner c.owner (fun l => { l with delete := false }) lv) choices)
           else
             .ok (.mk nm schema childs
               (updateFirstByOwner c.owner (fun l => LeafEntry.MarkUpdate l c) lv) choices)
         | none => .ok (.mk nm schema childs (lv ++ [NewLeafEntry c isNew]) choices)) := rfl

theorem addRec_cons {nm : String} {schema : Option SchemaElem} {childs : Childs}
    {lv : List LeafEntry} {choices : List ChoiceCasesResolver} {sofar : List String}
    {seg : String} {rest : List String} {c : CacheUpdate} {isNew : Bool}
    {anc : Option SchemaElem} {ancLvl : Nat} {schemaOf : List String → Option SchemaElem} :
    Entry.addRec (.mk nm schema childs lv choices) sofar (seg :: rest) c isNew anc ancLvl schemaOf
      = (match childs.find? seg with
         | some child =>
           match Entry.addRec child (sofar ++ [seg]) rest c isNew
               (childAncOf schema anc) (childAncLvlOf schema ancLvl) schemaOf with
           | .ok child2 => .ok (.mk nm schema (childs.insert seg child2) lv choices)
           | .error msg => .error msg
         | none =>
           match Entry.AddChild (.mk nm schema childs lv choices) sofar
               (newEntryModel seg (sofar ++ [seg])
                 (childAncOf schema anc) (childAncLvlOf schema ancLvl) schemaOf)
               (sofar ++ [seg]) with
           | .crash msg => .error msg
           | .err msg => .error msg
           | .ok _ =>
             match Entry.addRec
                 (newEntryModel seg (sofar ++ [seg])
                   (childAncOf schema anc) (childAncLvlOf schema ancLvl) schemaOf)
                 (sofar ++ [seg]) rest c isNew
                 (childAncOf schema anc) (childAncLvlOf schema ancLvl) schemaOf with
             | .ok child2 => .ok (.mk nm schema (childs.insert seg child2) lv choices)
             | .error msg => .error msg) := rfl

theorem clearDeleteAt_nil {nm : String} {schema : Option SchemaElem} {childs : Childs}
    {lv : List LeafEntry} {choices : List ChoiceCasesResolver} {owner : String} :
    Entry.clearDeleteAt (.mk nm schema childs lv choices) [] owner
      = .mk nm schema childs
          (updateFirstByOwner owner (fun l => { l with delete := false }) lv) choices := rfl

theorem clearDeleteAt_cons {nm : String} {schema : Option SchemaElem} {childs : Childs}
    {lv : List LeafEntry} {choices : List ChoiceCasesResolver} {owner : String}
    {seg : String} {rest : List String} :
    Entry.clearDeleteAt (.mk nm schema childs lv choices) (seg :: rest) owner
      = .mk nm schema
          (childs.modifyFirst seg (fun ce => Entry.clearDeleteAt ce rest owner)) lv choices := rfl

theorem lvGetByOwner_owner {owner : String} {lv : List LeafEntry} {v : LeafEntry}
    (hv : lvGetByOwner owner lv = some v) : (v.update.owner == owner) = true := by
  induction lv with
  | nil => simp [lvGetByOwner] at hv
  | cons l rest ih =>
    rw [lvGetByOwner] at hv
    by_cases hl : (l.update.owner == owner) = true
    · have hfind : List.find? (fun x => x.update.owner == owner) (l :: rest) = some l :=
        List.find?_cons_of_pos _ hl
      rw [hfind] at hv
      obtain rfl : l = v := by injection hv
      exact hl
    · have hfind : List.find? (fun x => x.update.owner == owner) (l :: rest)
          = List.find? (fun x => x.update.owner == owner) rest :=
        List.find?_cons_of_neg _ hl
      rw [hfind] at hv
      exact ih hv

theorem lvGetByOwner_updateFirst (f : LeafEntry → LeafEntry) {owner : String}
    {lv : List LeafEntry} {v : LeafEntry}
    (hv : lvGetByOwner owner lv = some v)
    (hf : ((f v).update.owner == owner) = true) :
    lvGetByOwner owner (updateFirstByOwner owner f lv) = some (f v) := by
  induction lv with
  | nil => simp [lvGetByOwner] at hv
  | cons l rest ih =>
    rw [lvGetByOwner] at hv
    by_cases hl : (l.update.owner == owner) = true
    · have hfind : List.find? (fun x => x.update.owner == owner) (l :: rest) = some l :=
        List.find?_cons_of_pos _ hl
      rw [hfind] at hv
      obtain rfl : l = v := by injection hv
      rw [updateFirstByOwner, if_pos hl, lvGetByOwner]
      exact List.find?_cons_of_pos _ hf
    · have hfind : List.find? (fun x => x.update.owner == owner) (l :: rest)
          = List.find? (fun x => x.update.owner == owner) rest :=
        List.find?_cons_of_neg _ hl
      rw [hfind] at hv
      rw [updateFirstByOwner, if_neg hl, lvGetByOwner]
      have hfind2 : List.find? (fun x => x.update.owner == owner)
            (l :: updateFirstByOwner owner f rest)
          = List.find? (fun x => x.update.owner == owner) (updateFirstByOwner owner f rest) :=
        List.find?_cons_of_neg _ hl
      rw [hfind2]
      exact ih hv

theorem lvGetByOwner_append_new (c : CacheUpdate) (isNew : Bool)
    {owner : String} {lv : List LeafEntry}
    (h : lvGetByOwner owner lv = none) (ho : (c.owner == owner) = true) :
    lvGetByOwner owner (lv ++ [NewLeafEntry c isNew]) = some (NewLeafEntry c isNew) := by
  induction lv with
  | nil =>
    rw [List.nil_append, lvGetByOwner]
    exact List.find?_cons_of_pos _ ho
  | cons l rest ih =>
    rw [lvGetByOwner] at h
    by_cases hl : (l.update.owner == owner) = true
    · have hfind : List.find? (fun x => x.update.owner == owner) (l :: rest) = some l :=
        List.find?_cons_of_pos _ hl
      rw [hfind] at h
      exact absurd h (by simp)
    · have hfind : List.find? (fun x => x.update.owner == owner) (l :: rest)
          = List.find? (fun x => x.update.owner == owner) rest :=
        List.find?_cons_of_neg _ hl
      rw [hfind] at h
      rw [List.cons_append, lvGetByOwner]
      have hfind2 : List.find? (fun x => x.update.owner == owner)
            (l :: (rest ++ [NewLeafEntry c isNew]))
          = List.find? (fun x => x.update.owner == owner) (rest ++ [NewLeafEntry c isNew]) :=
        List.find?_cons_of_neg _ hl
      rw [hfind2]
      exact ih h

theorem Childs.find?_insert : ∀ (cs : Childs) (seg : String) (c : Entry),
    (cs.insert seg c).find? seg = some c
  | .nil, seg, c => by simp [Childs.insert, Childs.find?]
  | .cons nm e rest, seg, c => by
    by_cases h : (nm == seg) = true
    · simp [Childs.insert, Childs.find?, h]
    · simp [Childs.insert, Childs.find?, h, Childs.find?_insert rest seg c]

theorem Childs.modifyFirst_insert : ∀ (cs : Childs) (seg : String) (c : Entry) (f : Entry → Entry),
    (cs.insert seg c).modifyFirst seg f = cs.insert seg (f c)
  | .nil, seg, c, f => by simp [Childs.insert, Childs.modifyFirst]
  | .cons nm e rest, seg, c, f => by
    by_cases h : (nm == seg) = true
    · simp [Childs.insert, Childs.modifyFirst, h]
    · simp [Childs.insert, Childs.modifyFirst, h, Childs.modifyFirst_insert rest seg c f]

theorem Childs.insert_insert : ∀ (cs : Childs) (seg : String) (a b : Entry),
    (cs.insert seg a).insert seg b = cs.insert seg b
  | .nil, seg, a, b => by simp [Childs.insert]
  | .cons nm e rest, seg, a, b => by
    by_cases h : (nm == seg) = true
    · simp [Childs.insert, h]
    · simp [Childs.insert, h, Childs.insert_insert rest seg a b]

theorem markUpdate_equalSkipPath (l : LeafEntry) (c : CacheUpdate) :
    (LeafEntry.MarkUpdate l c).EqualSkipPath c = true := by
  simp [LeafEntry.MarkUpdate, LeafEntry.EqualSkipPath]

theorem newLeafEntry_equalSkipPath (c : CacheUpdate) (isNew : Bool) :
    (NewLeafEntry c isNew).EqualSkipPath c = true := by
  simp [NewLeafEntry, LeafEntry.EqualSkipPath]

/-- The inductive core of claim C8: a second insertion of the same
cache update over a tree on which the insertion already succeeded
succeeds again and produces exactly the tree with the delete flag of
the owner variant at the update path cleared. -/
theorem addRec_idempotent : ∀ (remaining : List String) (e : Entry) (sofar : List String)
    (c : CacheUpdate) (n1 n2 : Bool) (anc : Option SchemaElem) (ancLvl : Nat)
    (schemaOf : List String → Option SchemaElem) (t1 : Entry),
    Entry.addRec e sofar remaining c n1 anc ancLvl schemaOf = Except.ok t1 →
    Entry.addRec t1 sofar remaining c n2 anc ancLvl schemaOf =
      Except.ok (t1.clearDeleteAt remaining c.owner) := by
  intro remaining
  induction remaining with
  | nil =>
    intro e sofar c n1 n2 anc ancLvl schemaOf t1 h1
    obtain ⟨nm, schema, childs, lv, ch⟩ := e
    rw [addRec_nil] at h1
    cases hlv : lvGetByOwner c.owner lv with
    | some v =>
      have hvo : (v.update.owner == c.owner) = true := lvGetByOwner_owner hlv
      simp only [hlv] at h1
      by_cases heq : v.EqualSkipPath c = true
      · rw [if_pos heq] at h1
        obtain rfl : Entry.mk nm schema childs
            (updateFirstByOwner c.owner (fun l => { l with delete := false }) lv) ch = t1 := by
          injection h1
        rw [addRec_nil, clearDeleteAt_nil]
        simp only [lvGetByOwner_updateFirst (fun l => { l with delete := false }) hlv hvo]
        rw [if_pos (show ((fun l => { l with delete := false }) v : LeafEntry).EqualSkipPath c
          = true from heq)]
      · rw [if_neg heq] at h1
        obtain rfl : Entry.mk nm schema childs
            (updateFirstByOwner c.owner (fun l => LeafEntry.MarkUpdate l c) lv) ch = t1 := by
          injection h1
        rw [addRec_nil, clearDeleteAt_nil]
        simp only [lvGetByOwner_updateFirst (fun l => LeafEntry.MarkUpdate l c) hlv
          (show (((fun l => LeafEntry.MarkUpdate l c) v).update.owner == c.owner) = true by
            simp [LeafEntry.MarkUpdate])]
        rw [if_pos (markUpdate_equalSkipPath v c)]
    | none =>
      simp only [hlv] at h1
      obtain rfl : Entry.mk nm schema childs (lv ++ [NewLeafEntry c n1]) ch = t1 := by
        injection h1
      rw [addRec_nil, clearDeleteAt_nil]
      simp only [lvGetByOwner_append_new c n1 hlv (by simp)]
      rw [if_pos (newLeafEntry_equalSkipPath c n1)]
  | cons seg rest ih =>
    intro e sofar c n1 n2 anc ancLvl schemaOf t1 h1
    obtain ⟨nm, schema, childs, lv, ch⟩ := e
    rw [addRec_cons] at h1
    cases hfind : childs.find? seg with
    | some child =>
      simp only [hfind] at h1
      cases hrec : Entry.addRec child (sofar ++ [seg]) rest c n1
          (childAncOf schema anc) (childAncLvlOf schema ancLvl) schemaOf with
      | ok child2 =>
        simp only [hrec] at h1
        obtain rfl : Entry.mk nm schema (childs.insert seg child2) lv ch = t1 := by
          injection h1
        rw [addRec_cons, clearDeleteAt_cons]
        simp only [Childs.find?_insert]
        simp only [ih child (sofar ++ [seg]) c n1 n2
          (childAncOf schema anc) (childAncLvlOf schema ancLvl) schemaOf child2 hrec]
        rw [Childs.modifyFirst_insert, Childs.insert_insert]
      | error msg =>
        simp only [hrec] at h1
        exact absurd h1 (by simp)
    | none =>
      simp only [hfind] at h1
      cases hadd : Entry.AddChild (.mk nm schema childs lv ch) sofar
          (newEntryModel seg (sofar ++ [seg])
            (childAncOf schema anc) (childAncLvlOf schema ancLvl) schemaOf)
          (sofar ++ [seg]) with
      | crash msg =>
        simp only [hadd] at h1
        exact absurd h1 (by simp)
      | err msg =>
        simp only [hadd] at h1
        exact absurd h1 (by simp)
      | ok w =>
        simp only [hadd] at h1
        cases hrec : Entry.addRec
            (newEntryModel seg (sofar ++ [seg])
              (childAncOf schema anc) (childAncLvlOf schema ancLvl) schemaOf)
            (sofar ++ [seg]) rest c n1
            (childAncOf schema anc) (childAncLvlOf schema ancLvl) schemaOf with
        | ok child2 =>
          simp only [hrec] at h1
          obtain rfl : Entry.mk nm schema (childs.insert seg child2) lv ch = t1 := by
            injection h1
          rw [addRec_cons, clearDeleteAt_cons]
          simp only [Childs.find?_insert]
          simp only [ih (newEntryModel seg (sofar ++ [seg])
              (childAncOf schema anc) (childAncLvlOf schema ancLvl) schemaOf)
            (sofar ++ [seg]) c n1 n2
            (childAncOf schema anc) (childAncLvlOf schema ancLvl) schemaOf child2 hrec]
          rw [Childs.modifyFirst_insert, Childs.insert_insert]
        | error msg =>
          simp only [hrec] at h1
          exact absurd h1 (by simp)

/-- C8 (confirmed): inserting the same cache update twice through
AddCacheUpdateRecursive is idempotent — when the first insertion
succeeds, the second succeeds as well, adds no new variant, sets
neither the new nor the updated flag, and changes the tree only by
clearing the delete flag of the owner variant at the update path
(clearDeleteAt is exactly that surgical modification). -/
theorem claim_C8_theorem (e : Entry) (c : CacheUpdate) (n1 n2 : Bool)
    (anc : Option SchemaElem) (ancLvl : Nat)
    (schemaOf : List String → Option SchemaElem) (t1 : Entry)
    (h1 : e.AddCacheUpdateRecursive c n1 anc ancLvl schemaOf = .ok t1) :
    t1.AddCacheUpdateRecursive c n2 anc ancLvl schemaOf =
      .ok (t1.clearDeleteAt c.path c.owner) :=
  addRec_idempotent c.path e [] c n1 n2 anc ancLvl schemaOf t1 h1

/-- Witness for claim_C8_theorem: a two-segment update inserted twice
into an initially empty root. -/
theorem claim_C8_witness :
    Entry.AddCacheUpdateRecursive eC8root uC8 true none 0 schemaOfC8 = .ok tC8 ∧
    Entry.AddCacheUpdateRecursive tC8 uC8 false none 0 schemaOfC8 =
      .ok (tC8.clearDeleteAt uC8.path uC8.owner) :=
  ⟨rfl, claim_C8_theorem eC8root uC8 true false none 0 schemaOfC8 tC8 rfl⟩

theorem storeLookup_insert : ∀ (st : List (String × List Nat)) (k : String) (v : List Nat),
    storeLookup (storeInsert st k v) k = some v
  | [], k, v => by simp [storeInsert, storeLookup]
  | p :: rest, k, v => by
    by_cases h : (p.1 == k) = true
    · simp [storeInsert, storeLookup, h]
    · simp [storeInsert, storeLookup, h, storeLookup_insert rest k v]

/-- C9 (confirmed over the modelled store and serializer): persisting
an intent writes the serialized request under the literal key
__raw_intent__ owner _ priorityDecimal, and getRawIntent after
saveRawIntent returns the request that was saved, for any serializer
pair that round-trips the request. -/
theorem claim_C9_theorem (marshal : SetIntentRequest → List Nat)
    (unmarshal : List Nat → Option SetIntentRequest)
    (st : List (String × List Nat)) (req : SetIntentRequest)
    (hinv : unmarshal (marshal req) = some req) :
    rawIntentName req.intent req.priority
      = "__raw_intent__" ++ req.intent ++ "_" ++ toString req.priority ∧
    storeLookup (saveRawIntent marshal st req.intent req)
        (rawIntentName req.intent req.priority)
      = some (marshal req) ∧
    getRawIntent unmarshal (saveRawIntent marshal st req.intent req)
        req.intent req.priority
      = .ok req := by
  refine ⟨rfl, ?_, ?_⟩
  · exact storeLookup_insert st _ _
  · simp only [getRawIntent, saveRawIntent, storeLookup_insert st _ _, hinv]

/-- Witness for claim_C9_theorem with a concrete serializer pair that
round-trips the concrete request. -/
theorem claim_C9_witness :
    rawIntentName reqC9.intent reqC9.priority
      = "__raw_intent__" ++ reqC9.intent ++ "_" ++ toString reqC9.priority ∧
    storeLookup (saveRawIntent marshalC9 [] reqC9.intent reqC9)
        (rawIntentName reqC9.intent reqC9.priority)
      = some (marshalC9 reqC9) ∧
    getRawIntent unmarshalC9 (saveRawIntent marshalC9 [] reqC9.intent reqC9)
        reqC9.intent reqC9.priority
      = .ok reqC9 :=
  claim_C9_theorem marshalC9 unmarshalC9 [] reqC9 (by decide)

/-- C3 (confirmed): when the southbound apply step fails, or the
validation step fails before it, SetIntentUpdate returns an error and
the intended store, the running-config store and the raw-intent blob
in the intents store are all unchanged. -/
theorem claim_C3_theorem (env : SetUpdateEnv) (req : SetIntentRequest)
    (marshal : SetIntentRequest → List Nat) (candidateName : String) (st : Stores)
    (hfail : env.validationErrors ≠ [] ∨
      ∃ e, applyIntent env.applyEnv candidateName env.updates.length env.deletes.length
        = .error e) :
    ∃ msg st2, setIntentUpdate env req marshal candidateName st = (.error msg, st2) ∧
      st2.intended = st.intended ∧ st2.config = st.config ∧ st2.intents = st.intents := by
  rcases hpop : env.populate with e | u
  · simp only [setIntentUpdate, hpop]
    exact ⟨e, st, rfl, rfl, rfl, rfl⟩
  · simp only [setIntentUpdate, hpop]
    by_cases hcu : env.convertUpdatesOk = false
    · rw [if_pos hcu]
      exact ⟨_, st, rfl, rfl, rfl, rfl⟩
    · rw [if_neg hcu]
      by_cases hval : env.validationErrors ≠ []
      · rw [if_pos hval]
        exact ⟨_, st, rfl, rfl, rfl, rfl⟩
      · rw [if_neg hval]
        by_cases hcd : env.convertDeletesOk = false
        · rw [if_pos hcd]
          exact ⟨_, st, rfl, rfl, rfl, rfl⟩
        · rw [if_neg hcd]
          rcases hsc : env.setCandidateRes with e2 | u2
          · simp only [hsc]
            exact ⟨e2, st, rfl, rfl, rfl, rfl⟩
          · simp only [hsc]
            rcases happ : applyIntent env.applyEnv candidateName
                env.updates.length env.deletes.length with e3 | u3
            · simp only [happ]
              exact ⟨e3, _, rfl, rfl, rfl, rfl⟩
            · exfalso
              rcases hfail with hv | ⟨e4, he4⟩
              · exact hval hv
              · rw [happ] at he4
                exact absurd he4 (by simp)

/-- Witness for claim_C3_theorem: concrete environment in which the
southbound Set fails with unavailable. -/
theorem claim_C3_witness :
    ∃ msg st2, setIntentUpdate envC3 reqC9 marshalC9 "intentA-1" stW = (.error msg, st2) ∧
      st2.intended = stW.intended ∧ st2.config = stW.config ∧ st2.intents = stW.intents :=
  claim_C3_theorem envC3 reqC9 marshalC9 "intentA-1" stW (Or.inr ⟨"unavailable", rfl⟩)

theorem removeFirstStr_append_self : ∀ (l : List String) (nm : String), nm ∉ l →
    removeFirstStr (l ++ [nm]) nm = l
  | [], nm, _ => by simp [removeFirstStr]
  | x :: rest, nm, h => by
    have hx : ¬(x == nm) = true := by
      simp only [beq_iff_eq]
      intro hxe
      exact h (by simp [hxe])
    simp only [List.cons_append, removeFirstStr, if_neg hx]
    exact congrArg (List.cons x)
      (removeFirstStr_append_self rest nm (fun hm => h (List.mem_cons_of_mem _ hm)))

/-- C10 (confirmed): a SetIntentRequest with an empty update list and
delete unset takes neither the update nor the delete path (the result
is the same for every pair of path functions, which are never
invoked), returns the empty successful response, and leaves every
store untouched apart from the candidate that is created and then
removed again by the deferred deletion. -/
theorem claim_C10_theorem (env : SetIntentEnv)
    (updatePath deletePath : Stores → Except String Unit × Stores)
    (req : SetIntentRequest) (st : Stores)
    (hlock : env.lockBusy = false)
    (hcreate : env.createCandidateRes = .ok ())
    (hupd : req.update = [])
    (hdel : req.delete = false) :
    ∃ st2, setIntent env updatePath deletePath req st = (.ok (), st2) ∧
      st2.intended = st.intended ∧ st2.config = st.config ∧ st2.intents = st.intents ∧
      st2.candWrites = st.candWrites ∧
      st2.candidates
        = removeFirstStr (st.candidates ++ [req.intent ++ "-" ++ toString env.nowNanos])
            (req.intent ++ "-" ++ toString env.nowNanos) ∧
      ((req.intent ++ "-" ++ toString env.nowNanos) ∉ st.candidates →
        st2.candidates = st.candidates) := by
  refine ⟨Stores.mk st.intended st.config st.intents st.candWrites
      (removeFirstStr (st.candidates ++ [req.intent ++ "-" ++ toString env.nowNanos])
        (req.intent ++ "-" ++ toString env.nowNanos)), ?_, rfl, rfl, rfl, rfl, rfl, ?_⟩
  · simp [setIntent, hlock, hcreate, hupd, hdel]
  · intro hnm
    exact removeFirstStr_append_self st.candidates _ hnm

/-- Witness for claim_C10_theorem at a concrete environment, request
and store state. -/
theorem claim_C10_witness :
    ∃ st2, setIntent envC10 (fun s => (.ok (), s)) (fun s => (.ok (), s)) reqC10 stW
        = (.ok (), st2) ∧
      st2.intended = stW.intended ∧ st2.config = stW.config ∧ st2.intents = stW.intents ∧
      st2.candWrites = stW.candWrites ∧
      st2.candidates
        = removeFirstStr (stW.candidates ++ [reqC10.intent ++ "-" ++ toString envC10.nowNanos])
            (reqC10.intent ++ "-" ++ toString envC10.nowNanos) ∧
      ((reqC10.intent ++ "-" ++ toString envC10.nowNanos) ∉ stW.candidates →
        st2.candidates = stW.candidates) :=
  claim_C10_theorem envC10 (fun s => (.ok (), s)) (fun s => (.ok (), s)) reqC10 stW
    rfl rfl rfl rfl

end DataServer
